import Mathlib

/-!
Verification of the CSV-to-YAML function-registry converter (`csv_to_yaml.py`).

The script is a batch pipeline: it loads function records from a CSV file,
resolves dependency ids to sanitized function names, maps team ids to display
names, and writes one YAML document per function into a directory tree shaped
by the dot-separated `path` field, plus one aggregate locations document.

This file gives a shallow embedding of that pipeline.  Strings are modelled as
Lean `String`s (lists of characters); each Python string primitive used by the
script (`str.replace`, `str.lower`, `str.isalnum`, `str.strip`, `str.split`,
`str.startswith`, `'-'.join`) is modelled at the character-list level.  The
ASCII fragment of `str.lower`/`str.isalnum`/`str.strip` is modelled exactly;
of the non-ASCII characters only the six Nordic vowels that the script
explicitly removes are modelled, which is the character set the converter's
own documentation and examples exercise.
-/

/-- The characters removed by every sanitizer (`chars_to_remove = 'æøåÆØÅ'`). -/
def nordicChars : List Char := ['æ', 'ø', 'å', 'Æ', 'Ø', 'Å']

/-- Model of Python `str.isalnum` on the modelled character set:
ASCII letters and digits, plus the six Nordic vowels (alphabetic in Python). -/
def pyIsAlnum (c : Char) : Bool := c.isAlphanum || nordicChars.contains c

/-- Model of Python `str.lower`, character-wise: ASCII uppercase maps down by
32, the uppercase Nordic vowels map to their lowercase forms, everything else
is fixed. -/
def pyToLower (c : Char) : Char :=
  if c = 'Æ' then 'æ' else if c = 'Ø' then 'ø' else if c = 'Å' then 'å' else c.toLower

/-- Model of Python `str.isspace` for the ASCII whitespace characters, the set
`str.strip()` removes on the modelled fragment. -/
def pyIsSpace (c : Char) : Bool :=
  c == ' ' || c == '\t' || c == '\n' || c == '\r' || c == Char.ofNat 11 || c == Char.ofNat 12

/-- Dropping the characters satisfying `p` from both ends of a list, the
common shape of Python `str.strip` with and without an argument. -/
def pyStripBy (p : Char → Bool) (l : List Char) : List Char :=
  ((l.dropWhile p).reverse.dropWhile p).reverse

/-- Model of Python `str.strip(chars)`: drop characters of `cs` from both ends. -/
def pyStripChars (cs : List Char) (l : List Char) : List Char :=
  pyStripBy (fun c => cs.contains c) l

/-- Model of Python `str.strip()` (no argument): drop whitespace from both ends. -/
def pyStripWs (l : List Char) : List Char :=
  pyStripBy pyIsSpace l

/-- Model of Python `str.replace(' ', repl)` character-wise. -/
def replaceChar (old new : Char) (l : List Char) : List Char :=
  l.map (fun c => if c = old then new else c)

/-- Removing the Nordic vowels, modelling the sequential
`sanitized.replace(char, '')` loop over `'æøåÆØÅ'`. -/
def removeNordic (l : List Char) : List Char :=
  l.filter (fun c => !nordicChars.contains c)

/-- The character class kept by `sanitize_for_metadata`
(alphanumeric, hyphen, underscore, period). -/
def metaKeep (c : Char) : Bool :=
  pyIsAlnum c || c == '-' || c == '_' || c == '.'

/-- The character class kept by `sanitize_for_owner`
(alphanumeric, hyphen, underscore, period, colon, slash). -/
def ownerKeep (c : Char) : Bool :=
  pyIsAlnum c || c == '-' || c == '_' || c == '.' || c == ':' || c == '/'

/-- The character class kept by `sanitize_filename` (alphanumeric, hyphen). -/
def fileKeep (c : Char) : Bool :=
  pyIsAlnum c || c == '-'

/-- The strip set of `sanitize_for_metadata`: `.strip('.-_\\')`. -/
def metaStripSet : List Char := ['.', '-', '_', '\\']

/-- `sanitize_for_owner` from `csv_to_yaml.py`: replace spaces with
underscores, remove the Nordic vowels, keep only alphanumerics and `-_.:/`,
lowercase. -/
def sanitize_for_owner (name : String) : String :=
  let sanitized := replaceChar ' ' '_' name.data
  let sanitized := removeNordic sanitized
  let sanitized := sanitized.filter ownerKeep
  let sanitized := sanitized.map pyToLower
  ⟨sanitized⟩

/-- `sanitize_for_metadata` from `csv_to_yaml.py`: like the owner sanitizer
but keeping only alphanumerics and `-_.`, and finally stripping leading and
trailing `.`, `-`, `_`, `\`. -/
def sanitize_for_metadata (name : String) : String :=
  let sanitized := replaceChar ' ' '_' name.data
  let sanitized := removeNordic sanitized
  let sanitized := sanitized.filter metaKeep
  let sanitized := sanitized.map pyToLower
  let sanitized := pyStripChars metaStripSet sanitized
  ⟨sanitized⟩

/-- `sanitize_filename` from `csv_to_yaml.py`: remove the Nordic vowels,
lowercase, replace spaces with hyphens, keep only alphanumerics and hyphens,
then collapse hyphen runs via `'-'.join(filter(None, filename.split('-')))`. -/
def sanitize_filename (name : String) : String :=
  let noNordic := removeNordic name.data
  let filename := replaceChar ' ' '-' (noNordic.map pyToLower)
  let filename := filename.filter fileKeep
  let filename := List.intercalate ['-'] ((filename.splitOn '-').filter (fun part => !part.isEmpty))
  ⟨filename⟩

example : sanitize_for_metadata "Testø - team-lead!" = "test_-_team-lead" := by decide

example : sanitize_for_owner "Group: Default/Team Name!" = "group:_default/team_name" := by decide

example : sanitize_filename "Testø - team-lead!" = "test-team-lead" := by decide

/-! ### Character-level toolkit -/

theorem char_ofNat_toNat (n : Nat) (h : n.isValidChar) : (Char.ofNat n).toNat = n := by
  simp only [Char.ofNat, dif_pos h, Char.ofNatAux, Char.toNat, UInt32.toNat]
  simp

theorem char_toNat_inj {c d : Char} (h : c.toNat = d.toNat) : c = d :=
  Char.eq_of_val_eq (UInt32.ext h)

theorem char_eq_iff_toNat {c d : Char} : c = d ↔ c.toNat = d.toNat :=
  ⟨fun h => h ▸ rfl, char_toNat_inj⟩

theorem char_isUpper_iff (c : Char) : c.isUpper = true ↔ 65 ≤ c.toNat ∧ c.toNat ≤ 90 := by
  simp only [Char.isUpper, Bool.and_eq_true, decide_eq_true_eq]
  exact Iff.rfl

theorem char_isLower_iff (c : Char) : c.isLower = true ↔ 97 ≤ c.toNat ∧ c.toNat ≤ 122 := by
  simp only [Char.isLower, Bool.and_eq_true, decide_eq_true_eq]
  exact Iff.rfl

theorem char_isDigit_iff (c : Char) : c.isDigit = true ↔ 48 ≤ c.toNat ∧ c.toNat ≤ 57 := by
  simp only [Char.isDigit, Bool.and_eq_true, decide_eq_true_eq]
  exact Iff.rfl

theorem char_isAlphanum_iff (c : Char) :
    c.isAlphanum = true ↔
      (65 ≤ c.toNat ∧ c.toNat ≤ 90) ∨ (97 ≤ c.toNat ∧ c.toNat ≤ 122) ∨
        (48 ≤ c.toNat ∧ c.toNat ≤ 57) := by
  simp only [Char.isAlphanum, Char.isAlpha, Bool.or_eq_true, char_isUpper_iff,
    char_isLower_iff, char_isDigit_iff]
  tauto

theorem char_toLower_upper {c : Char} (h1 : 65 ≤ c.toNat) (h2 : c.toNat ≤ 90) :
    c.toLower.toNat = c.toNat + 32 := by
  simp only [Char.toLower, if_pos (show c.toNat ≥ 65 ∧ c.toNat ≤ 90 from ⟨h1, h2⟩)]
  exact char_ofNat_toNat _ (Or.inl (by omega))

theorem char_toLower_self {c : Char} (h : ¬(65 ≤ c.toNat ∧ c.toNat ≤ 90)) : c.toLower = c := by
  simp only [Char.toLower]
  rw [if_neg]
  omega

theorem nordic_contains_iff (c : Char) :
    nordicChars.contains c = true ↔
      c.toNat = 230 ∨ c.toNat = 248 ∨ c.toNat = 229 ∨
        c.toNat = 198 ∨ c.toNat = 216 ∨ c.toNat = 197 := by
  have hmem : nordicChars.contains c = true ↔ c ∈ nordicChars := by
    simp [List.contains_iff_exists_mem_beq, beq_iff_eq]
  rw [hmem]
  simp only [nordicChars, List.mem_cons, List.not_mem_nil, or_false]
  constructor
  · rintro (rfl | rfl | rfl | rfl | rfl | rfl) <;> simp
  · intro h
    rcases h with h | h | h | h | h | h
    · exact Or.inl (char_toNat_inj (by rw [h]; rfl))
    · exact Or.inr (Or.inl (char_toNat_inj (by rw [h]; rfl)))
    · exact Or.inr (Or.inr (Or.inl (char_toNat_inj (by rw [h]; rfl))))
    · exact Or.inr (Or.inr (Or.inr (Or.inl (char_toNat_inj (by rw [h]; rfl)))))
    · exact Or.inr (Or.inr (Or.inr (Or.inr (Or.inl (char_toNat_inj (by rw [h]; rfl))))))
    · exact Or.inr (Or.inr (Or.inr (Or.inr (Or.inr (char_toNat_inj (by rw [h]; rfl))))))

/-- Case analysis for `pyToLower`, phrased through character codes. -/
theorem pyToLower_spec (c : Char) :
    (c.toNat = 198 ∧ (pyToLower c).toNat = 230) ∨
    (c.toNat = 216 ∧ (pyToLower c).toNat = 248) ∨
    (c.toNat = 197 ∧ (pyToLower c).toNat = 229) ∨
    (c.toNat ≠ 198 ∧ c.toNat ≠ 216 ∧ c.toNat ≠ 197 ∧
      65 ≤ c.toNat ∧ c.toNat ≤ 90 ∧ (pyToLower c).toNat = c.toNat + 32) ∨
    (c.toNat ≠ 198 ∧ c.toNat ≠ 216 ∧ c.toNat ≠ 197 ∧
      ¬(65 ≤ c.toNat ∧ c.toNat ≤ 90) ∧ pyToLower c = c) := by
  unfold pyToLower
  by_cases h1 : c = 'Æ'
  · subst h1; left; constructor <;> simp
  by_cases h2 : c = 'Ø'
  · subst h2; right; left; constructor <;> simp [h1]
  by_cases h3 : c = 'Å'
  · subst h3; right; right; left; constructor <;> simp [h1, h2]
  rw [if_neg h1, if_neg h2, if_neg h3]
  have e1 : c.toNat ≠ 198 := fun h => h1 (char_toNat_inj (by rw [h]; rfl))
  have e2 : c.toNat ≠ 216 := fun h => h2 (char_toNat_inj (by rw [h]; rfl))
  have e3 : c.toNat ≠ 197 := fun h => h3 (char_toNat_inj (by rw [h]; rfl))
  by_cases hu : 65 ≤ c.toNat ∧ c.toNat ≤ 90
  · exact Or.inr (Or.inr (Or.inr (Or.inl
      ⟨e1, e2, e3, hu.1, hu.2, char_toLower_upper hu.1 hu.2⟩)))
  · exact Or.inr (Or.inr (Or.inr (Or.inr ⟨e1, e2, e3, hu, char_toLower_self hu⟩)))

/-! ### Character-class lemmas for the keep sets -/

theorem pyIsAlnum_iff (c : Char) :
    pyIsAlnum c = true ↔
      (65 ≤ c.toNat ∧ c.toNat ≤ 90) ∨ (97 ≤ c.toNat ∧ c.toNat ≤ 122) ∨
        (48 ≤ c.toNat ∧ c.toNat ≤ 57) ∨
      c.toNat = 230 ∨ c.toNat = 248 ∨ c.toNat = 229 ∨
        c.toNat = 198 ∨ c.toNat = 216 ∨ c.toNat = 197 := by
  simp only [pyIsAlnum, Bool.or_eq_true, char_isAlphanum_iff, nordic_contains_iff]
  tauto

theorem metaKeep_iff (c : Char) :
    metaKeep c = true ↔
      (65 ≤ c.toNat ∧ c.toNat ≤ 90) ∨ (97 ≤ c.toNat ∧ c.toNat ≤ 122) ∨
        (48 ≤ c.toNat ∧ c.toNat ≤ 57) ∨
      c.toNat = 230 ∨ c.toNat = 248 ∨ c.toNat = 229 ∨
        c.toNat = 198 ∨ c.toNat = 216 ∨ c.toNat = 197 ∨
      c.toNat = 45 ∨ c.toNat = 95 ∨ c.toNat = 46 := by
  have h1 : ('-').toNat = 45 := rfl
  have h2 : ('_').toNat = 95 := rfl
  have h3 : ('.').toNat = 46 := rfl
  simp only [metaKeep, Bool.or_eq_true, pyIsAlnum_iff, beq_iff_eq, char_eq_iff_toNat, h1, h2, h3]
  omega

theorem ownerKeep_iff (c : Char) :
    ownerKeep c = true ↔
      (65 ≤ c.toNat ∧ c.toNat ≤ 90) ∨ (97 ≤ c.toNat ∧ c.toNat ≤ 122) ∨
        (48 ≤ c.toNat ∧ c.toNat ≤ 57) ∨
      c.toNat = 230 ∨ c.toNat = 248 ∨ c.toNat = 229 ∨
        c.toNat = 198 ∨ c.toNat = 216 ∨ c.toNat = 197 ∨
      c.toNat = 45 ∨ c.toNat = 95 ∨ c.toNat = 46 ∨ c.toNat = 58 ∨ c.toNat = 47 := by
  have h1 : ('-').toNat = 45 := rfl
  have h2 : ('_').toNat = 95 := rfl
  have h3 : ('.').toNat = 46 := rfl
  have h4 : (':').toNat = 58 := rfl
  have h5 : ('/').toNat = 47 := rfl
  simp only [ownerKeep, Bool.or_eq_true, pyIsAlnum_iff, beq_iff_eq, char_eq_iff_toNat,
    h1, h2, h3, h4, h5]
  omega

theorem fileKeep_iff (c : Char) :
    fileKeep c = true ↔
      (65 ≤ c.toNat ∧ c.toNat ≤ 90) ∨ (97 ≤ c.toNat ∧ c.toNat ≤ 122) ∨
        (48 ≤ c.toNat ∧ c.toNat ≤ 57) ∨
      c.toNat = 230 ∨ c.toNat = 248 ∨ c.toNat = 229 ∨
        c.toNat = 198 ∨ c.toNat = 216 ∨ c.toNat = 197 ∨ c.toNat = 45 := by
  have h1 : ('-').toNat = 45 := rfl
  simp only [fileKeep, Bool.or_eq_true, pyIsAlnum_iff, beq_iff_eq, char_eq_iff_toNat, h1]
  omega

theorem nordic_contains_false_iff (c : Char) :
    nordicChars.contains c = false ↔
      c.toNat ≠ 230 ∧ c.toNat ≠ 248 ∧ c.toNat ≠ 229 ∧
        c.toNat ≠ 198 ∧ c.toNat ≠ 216 ∧ c.toNat ≠ 197 := by
  rw [← Bool.not_eq_true, nordic_contains_iff]
  tauto

theorem char_ne_space_iff (c : Char) : c ≠ ' ' ↔ c.toNat ≠ 32 := by
  have h : (' ').toNat = 32 := rfl
  rw [Ne, char_eq_iff_toNat, h]

theorem pyToLower_fix {c : Char} (hu : ¬(65 ≤ c.toNat ∧ c.toNat ≤ 90))
    (h1 : c.toNat ≠ 198) (h2 : c.toNat ≠ 216) (h3 : c.toNat ≠ 197) : pyToLower c = c := by
  rcases pyToLower_spec c with ⟨h, _⟩ | ⟨h, _⟩ | ⟨h, _⟩ | ⟨_, _, _, ha, hb, _⟩ | ⟨_, _, _, _, hfix⟩
  · exact absurd h h1
  · exact absurd h h2
  · exact absurd h h3
  · exact absurd ⟨ha, hb⟩ hu
  · exact hfix

theorem pyToLower_idem (c : Char) : pyToLower (pyToLower c) = pyToLower c := by
  rcases pyToLower_spec c with ⟨_, hv⟩ | ⟨_, hv⟩ | ⟨_, hv⟩ | ⟨_, _, _, _, _, hv⟩ |
    ⟨_, _, _, _, hfix⟩
  · exact pyToLower_fix (by omega) (by omega) (by omega) (by omega)
  · exact pyToLower_fix (by omega) (by omega) (by omega) (by omega)
  · exact pyToLower_fix (by omega) (by omega) (by omega) (by omega)
  · exact pyToLower_fix (by omega) (by omega) (by omega) (by omega)
  · rw [hfix, hfix]

/-! ### List helpers -/

theorem map_eq_self_of {α : Type} {l : List α} {f : α → α} (h : ∀ a ∈ l, f a = a) :
    l.map f = l := by
  induction l with
  | nil => rfl
  | cons a t ih =>
    simp only [List.map_cons, h a (List.mem_cons_self a t),
      ih (fun x hx => h x (List.mem_cons_of_mem a hx))]

theorem filter_eq_self_of {α : Type} {l : List α} {p : α → Bool} (h : ∀ a ∈ l, p a = true) :
    l.filter p = l :=
  List.filter_eq_self.mpr h

theorem dropWhile_head_false {α : Type} {p : α → Bool} {l : List α} {a : α} {t : List α}
    (h : l.dropWhile p = a :: t) : p a = false := by
  induction l generalizing a t with
  | nil => simp at h
  | cons b l ih =>
    by_cases hb : p b = true
    · rw [List.dropWhile_cons, if_pos hb] at h
      exact ih h
    · rw [List.dropWhile_cons, if_neg hb] at h
      injection h with h1 _
      subst h1
      cases hpb : p b with
      | false => rfl
      | true => exact absurd hpb hb

theorem dropWhile_eq_self_of_head {α : Type} {p : α → Bool} {l : List α}
    (h : ∀ a t, l = a :: t → p a = false) : l.dropWhile p = l := by
  cases l with
  | nil => rfl
  | cons a t =>
    rw [List.dropWhile_cons, if_neg]
    rw [h a t rfl]
    simp

theorem dropWhile_dropWhile {α : Type} (p : α → Bool) (l : List α) :
    (l.dropWhile p).dropWhile p = l.dropWhile p := by
  apply dropWhile_eq_self_of_head
  intro a t h
  exact dropWhile_head_false h

theorem dropWhile_eq_nil_of_all {α : Type} {p : α → Bool} {l : List α}
    (h : ∀ c ∈ l, p c = true) : l.dropWhile p = [] := by
  induction l with
  | nil => rfl
  | cons a t ih =>
    rw [List.dropWhile_cons, if_pos (h a (List.mem_cons_self a t))]
    exact ih (fun x hx => h x (List.mem_cons_of_mem a hx))

theorem dropWhile_append_of_all {α : Type} {p : α → Bool} {u : List α} (l : List α)
    (h : ∀ c ∈ u, p c = true) : (u ++ l).dropWhile p = l.dropWhile p := by
  induction u with
  | nil => rfl
  | cons a t ih =>
    rw [List.cons_append, List.dropWhile_cons, if_pos (h a (List.mem_cons_self a t))]
    exact ih (fun x hx => h x (List.mem_cons_of_mem a hx))

theorem mem_of_dropWhile {α : Type} {p : α → Bool} {l : List α} {c : α}
    (h : c ∈ l.dropWhile p) : c ∈ l :=
  (List.dropWhile_sublist p).mem h

/-! ### Strip lemmas -/

theorem pyStripBy_head_false {p : Char → Bool} {l a t} (h : pyStripBy p l = a :: t) :
    p a = false := by
  unfold pyStripBy at h
  set A := l.dropWhile p with hA
  set B := A.reverse.dropWhile p with hB
  have hBne : B ≠ [] := by
    intro hnil
    rw [hnil] at h
    simp at h
  have hhead : (B.reverse).head? = some a := by rw [h]; rfl
  have hlastB : B.getLast? = some a := by rw [← List.head?_reverse]; exact hhead
  have hdecomp : A.reverse = A.reverse.takeWhile p ++ B := (List.takeWhile_append_dropWhile p _).symm
  have hlastAR : (A.reverse).getLast? = some a := by
    rw [hdecomp, List.getLast?_append_of_ne_nil _ hBne]
    exact hlastB
  have hheadA : A.head? = some a := by
    rw [← List.getLast?_reverse]
    exact hlastAR
  cases hAd : A with
  | nil => rw [hAd] at hheadA; simp at hheadA
  | cons x xs =>
    rw [hAd] at hheadA
    simp only [List.head?_cons, Option.some.injEq] at hheadA
    subst hheadA
    have hxl : l.dropWhile p = x :: xs := by rw [← hA]; exact hAd
    exact dropWhile_head_false hxl

theorem pyStripBy_last_false {p : Char → Bool} {l a t} (h : (pyStripBy p l).reverse = a :: t) :
    p a = false := by
  unfold pyStripBy at h
  rw [List.reverse_reverse] at h
  exact dropWhile_head_false h

theorem pyStripBy_idem (p : Char → Bool) (l : List Char) :
    pyStripBy p (pyStripBy p l) = pyStripBy p l := by
  have h1 : (pyStripBy p l).dropWhile p = pyStripBy p l :=
    dropWhile_eq_self_of_head (fun a t h => pyStripBy_head_false (by rw [h]))
  have h2 : (pyStripBy p l).reverse.dropWhile p = (pyStripBy p l).reverse := by
    apply dropWhile_eq_self_of_head
    intro a t h
    exact pyStripBy_last_false (by rw [h])
  show ((((pyStripBy p l).dropWhile p).reverse).dropWhile p).reverse = pyStripBy p l
  rw [h1, h2, List.reverse_reverse]

theorem mem_of_pyStripBy {p : Char → Bool} {l : List Char} {c : Char}
    (h : c ∈ pyStripBy p l) : c ∈ l := by
  unfold pyStripBy at h
  rw [List.mem_reverse] at h
  have h2 := mem_of_dropWhile h
  rw [List.mem_reverse] at h2
  exact mem_of_dropWhile h2

theorem pyStripBy_sandwich {p : Char → Bool} {u v : List Char} (x : List Char)
    (hu : ∀ c ∈ u, p c = true) (hv : ∀ c ∈ v, p c = true) :
    pyStripBy p (u ++ x ++ v) = pyStripBy p x := by
  unfold pyStripBy
  rw [List.append_assoc, dropWhile_append_of_all (x ++ v) hu]
  rw [List.dropWhile_append]
  by_cases hx : (x.dropWhile p).isEmpty = true
  · rw [if_pos hx]
    rw [dropWhile_eq_nil_of_all hv]
    rw [List.isEmpty_iff] at hx
    rw [hx]
  · rw [if_neg hx]
    rw [List.reverse_append, dropWhile_append_of_all (x.dropWhile p).reverse
      (fun c hc => hv c (List.mem_reverse.mp hc))]

/-! ### Stage lemmas for the sanitizer pipelines -/

theorem mem_replaceChar {old new : Char} {l : List Char} {c : Char}
    (h : c ∈ replaceChar old new l) : c = new ∨ (c ∈ l ∧ c ≠ old) := by
  unfold replaceChar at h
  rw [List.mem_map] at h
  obtain ⟨d, hd, hval⟩ := h
  by_cases hdo : d = old
  · left; rw [← hval, if_pos hdo]
  · right
    constructor
    · rw [← hval, if_neg hdo]; exact hd
    · rw [← hval, if_neg hdo]; exact hdo

theorem replaceChar_eq_self {old new : Char} {l : List Char} (h : ∀ c ∈ l, c ≠ old) :
    replaceChar old new l = l :=
  map_eq_self_of (fun c hc => if_neg (h c hc))

theorem mem_removeNordic {l : List Char} {c : Char} (h : c ∈ removeNordic l) :
    c ∈ l ∧ nordicChars.contains c = false := by
  unfold removeNordic at h
  rw [List.mem_filter] at h
  refine ⟨h.1, ?_⟩
  have h2 := h.2
  simpa using h2

theorem removeNordic_eq_self {l : List Char} (h : ∀ c ∈ l, nordicChars.contains c = false) :
    removeNordic l = l :=
  filter_eq_self_of (fun c hc => by rw [h c hc]; rfl)

/-- The metadata sanitizer before its final strip step. -/
def metaCore (l : List Char) : List Char :=
  ((removeNordic (replaceChar ' ' '_' l)).filter metaKeep).map pyToLower

/-- The owner sanitizer body (it has no strip step). -/
def ownerCore (l : List Char) : List Char :=
  ((removeNordic (replaceChar ' ' '_' l)).filter ownerKeep).map pyToLower

theorem sanitize_for_metadata_eq (s : String) :
    sanitize_for_metadata s = ⟨pyStripChars metaStripSet (metaCore s.data)⟩ := rfl

theorem sanitize_for_owner_eq (s : String) :
    sanitize_for_owner s = ⟨ownerCore s.data⟩ := rfl

/-- Characters that every metadata-sanitizer output consists of: kept,
Nordic-free, not a space, and fixed by lowercasing. -/
def MetaQ (c : Char) : Prop :=
  metaKeep c = true ∧ nordicChars.contains c = false ∧ c ≠ ' ' ∧ pyToLower c = c

/-- Characters that every owner-sanitizer output consists of. -/
def OwnerQ (c : Char) : Prop :=
  ownerKeep c = true ∧ nordicChars.contains c = false ∧ c ≠ ' ' ∧ pyToLower c = c

theorem metaQ_of_out {d : Char} (hkeep : metaKeep d = true)
    (hnord : nordicChars.contains d = false) (hsp : d ≠ ' ') : MetaQ (pyToLower d) := by
  rw [nordic_contains_false_iff] at hnord
  rcases pyToLower_spec d with ⟨h, _⟩ | ⟨h, _⟩ | ⟨h, _⟩ |
    ⟨_, _, _, hl, hu, hv⟩ | ⟨_, _, _, _, hfix⟩
  · omega
  · omega
  · omega
  · refine ⟨?_, ?_, ?_, ?_⟩
    · rw [metaKeep_iff]; omega
    · rw [nordic_contains_false_iff]; omega
    · rw [char_ne_space_iff]; omega
    · apply pyToLower_fix <;> omega
  · rw [hfix]
    exact ⟨hkeep, by rw [nordic_contains_false_iff]; exact hnord, hsp, hfix⟩

theorem ownerQ_of_out {d : Char} (hkeep : ownerKeep d = true)
    (hnord : nordicChars.contains d = false) (hsp : d ≠ ' ') : OwnerQ (pyToLower d) := by
  rw [nordic_contains_false_iff] at hnord
  rcases pyToLower_spec d with ⟨h, _⟩ | ⟨h, _⟩ | ⟨h, _⟩ |
    ⟨_, _, _, hl, hu, hv⟩ | ⟨_, _, _, _, hfix⟩
  · omega
  · omega
  · omega
  · refine ⟨?_, ?_, ?_, ?_⟩
    · rw [ownerKeep_iff]; omega
    · rw [nordic_contains_false_iff]; omega
    · rw [char_ne_space_iff]; omega
    · apply pyToLower_fix <;> omega
  · rw [hfix]
    exact ⟨hkeep, by rw [nordic_contains_false_iff]; exact hnord, hsp, hfix⟩

theorem metaQ_mem_metaCore {l : List Char} {c : Char} (h : c ∈ metaCore l) : MetaQ c := by
  unfold metaCore at h
  rw [List.mem_map] at h
  obtain ⟨d, hd, rfl⟩ := h
  rw [List.mem_filter] at hd
  obtain ⟨hd1, hkeep⟩ := hd
  obtain ⟨hd2, hnord⟩ := mem_removeNordic hd1
  have hsp : d ≠ ' ' := by
    rcases mem_replaceChar hd2 with h | ⟨_, hne⟩
    · rw [h]; decide
    · exact hne
  exact metaQ_of_out hkeep hnord hsp

theorem ownerQ_mem_ownerCore {l : List Char} {c : Char} (h : c ∈ ownerCore l) : OwnerQ c := by
  unfold ownerCore at h
  rw [List.mem_map] at h
  obtain ⟨d, hd, rfl⟩ := h
  rw [List.mem_filter] at hd
  obtain ⟨hd1, hkeep⟩ := hd
  obtain ⟨hd2, hnord⟩ := mem_removeNordic hd1
  have hsp : d ≠ ' ' := by
    rcases mem_replaceChar hd2 with h | ⟨_, hne⟩
    · rw [h]; decide
    · exact hne
  exact ownerQ_of_out hkeep hnord hsp

theorem metaCore_eq_self {l : List Char} (h : ∀ c ∈ l, MetaQ c) : metaCore l = l := by
  unfold metaCore
  rw [replaceChar_eq_self (fun c hc => (h c hc).2.2.1)]
  rw [removeNordic_eq_self (fun c hc => (h c hc).2.1)]
  rw [filter_eq_self_of (fun c hc => (h c hc).1)]
  exact map_eq_self_of (fun c hc => (h c hc).2.2.2)

theorem ownerCore_eq_self {l : List Char} (h : ∀ c ∈ l, OwnerQ c) : ownerCore l = l := by
  unfold ownerCore
  rw [replaceChar_eq_self (fun c hc => (h c hc).2.2.1)]
  rw [removeNordic_eq_self (fun c hc => (h c hc).2.1)]
  rw [filter_eq_self_of (fun c hc => (h c hc).1)]
  exact map_eq_self_of (fun c hc => (h c hc).2.2.2)

theorem sanitize_for_metadata_idem (s : String) :
    sanitize_for_metadata (sanitize_for_metadata s) = sanitize_for_metadata s := by
  rw [sanitize_for_metadata_eq, sanitize_for_metadata_eq]
  apply congrArg String.mk
  have hq : ∀ c ∈ pyStripChars metaStripSet (metaCore s.data), MetaQ c :=
    fun c hc => metaQ_mem_metaCore (mem_of_pyStripBy hc)
  show pyStripChars metaStripSet
      (metaCore (pyStripChars metaStripSet (metaCore s.data))) =
    pyStripChars metaStripSet (metaCore s.data)
  rw [metaCore_eq_self hq]
  exact pyStripBy_idem _ _

theorem sanitize_for_owner_idem (s : String) :
    sanitize_for_owner (sanitize_for_owner s) = sanitize_for_owner s := by
  rw [sanitize_for_owner_eq, sanitize_for_owner_eq]
  apply congrArg String.mk
  exact ownerCore_eq_self (fun c hc => ownerQ_mem_ownerCore hc)

/-! ### splitOn and intercalate lemmas for the filename sanitizer -/

theorem splitOnP_part_mem {α : Type} {p : α → Bool} :
    ∀ {l part : List α} {c : α}, part ∈ l.splitOnP p → c ∈ part → c ∈ l ∧ p c = false := by
  intro l
  induction l with
  | nil =>
    intro part c hp hc
    rw [List.splitOnP_nil] at hp
    rcases List.mem_cons.mp hp with h | h
    · subst h; simp at hc
    · simp at h
  | cons a t ih =>
    intro part c hp hc
    rw [List.splitOnP_cons] at hp
    by_cases ha : p a = true
    · rw [if_pos ha] at hp
      rcases List.mem_cons.mp hp with h | h
      · subst h; simp at hc
      · obtain ⟨h1, h2⟩ := ih h hc
        exact ⟨List.mem_cons_of_mem a h1, h2⟩
    · rw [if_neg ha] at hp
      cases hsp : t.splitOnP p with
      | nil => exact absurd hsp (List.splitOnP_ne_nil p t)
      | cons h0 r =>
        rw [hsp] at hp
        simp only [List.modifyHead] at hp
        rcases List.mem_cons.mp hp with h | h
        · subst h
          rcases List.mem_cons.mp hc with h | h
          · subst h
            refine ⟨List.mem_cons_self c t, ?_⟩
            cases hpc : p c with
            | false => rfl
            | true => exact absurd hpc ha
          · obtain ⟨h1, h2⟩ := ih (by rw [hsp]; exact List.mem_cons_self h0 r) h
            exact ⟨List.mem_cons_of_mem a h1, h2⟩
        · obtain ⟨h1, h2⟩ := ih (by rw [hsp]; exact List.mem_cons_of_mem h0 h) hc
          exact ⟨List.mem_cons_of_mem a h1, h2⟩

theorem splitOn_part_mem {l part : List Char} {c : Char}
    (hp : part ∈ l.splitOn '-') (hc : c ∈ part) : c ∈ l ∧ c ≠ '-' := by
  have h := @splitOnP_part_mem Char (fun c => c == '-') l part c hp hc
  refine ⟨h.1, ?_⟩
  have h2 := h.2
  simpa using h2

theorem mem_intercalate_sep {x : Char} :
    ∀ {ps : List (List Char)} {c : Char},
      c ∈ List.intercalate [x] ps → c = x ∨ ∃ p ∈ ps, c ∈ p := by
  intro ps
  induction ps with
  | nil =>
    intro c hc
    simp [List.intercalate] at hc
  | cons p ps ih =>
    intro c hc
    cases ps with
    | nil =>
      have hp : List.intercalate [x] [p] = p := by simp [List.intercalate]
      rw [hp] at hc
      exact Or.inr ⟨p, List.mem_cons_self p [], hc⟩
    | cons q r =>
      have hsplit : List.intercalate [x] (p :: q :: r) =
          p ++ x :: List.intercalate [x] (q :: r) := by
        simp [List.intercalate, List.intersperse_cons_cons]
      rw [hsplit] at hc
      rcases List.mem_append.mp hc with h | h
      · exact Or.inr ⟨p, List.mem_cons_self p (q :: r), h⟩
      · rcases List.mem_cons.mp h with h | h
        · exact Or.inl h
        · rcases ih h with h | ⟨p2, hp2, hcp2⟩
          · exact Or.inl h
          · exact Or.inr ⟨p2, List.mem_cons_of_mem p hp2, hcp2⟩

theorem collapse_idem {qs : List (List Char)}
    (hne : ∀ p ∈ qs, p ≠ []) (hnosep : ∀ p ∈ qs, '-' ∉ p) :
    ((List.intercalate ['-'] qs).splitOn '-').filter (fun part => !part.isEmpty) = qs := by
  cases hqs : qs with
  | nil => simp [List.intercalate]
  | cons q r =>
    rw [← hqs]
    rw [List.splitOn_intercalate qs '-' hnosep (by rw [hqs]; exact List.cons_ne_nil q r)]
    apply filter_eq_self_of
    intro part hp
    cases hpart : part with
    | nil => exact absurd hpart (hne part hp)
    | cons a t => rfl

/-! ### Filename sanitizer idempotence -/

/-- The filename sanitizer before hyphen collapsing. -/
def fileCore (l : List Char) : List Char :=
  (replaceChar ' ' '-' ((removeNordic l).map pyToLower)).filter fileKeep

/-- The final step of the filename sanitizer:
`'-'.join(filter(None, filename.split('-')))`. -/
def collapseHyphens (l : List Char) : List Char :=
  List.intercalate ['-'] ((l.splitOn '-').filter (fun part => !part.isEmpty))

theorem sanitize_filename_eq (s : String) :
    sanitize_filename s = ⟨collapseHyphens (fileCore s.data)⟩ := rfl

/-- Characters that every filename-sanitizer output consists of. -/
def FileQ (c : Char) : Prop :=
  fileKeep c = true ∧ nordicChars.contains c = false ∧ c ≠ ' ' ∧ pyToLower c = c

theorem fileQ_hyphen : FileQ '-' := by
  refine ⟨by decide, by decide, by decide, by decide⟩

theorem fileQ_mem_fileCore {l : List Char} {c : Char} (h : c ∈ fileCore l) : FileQ c := by
  unfold fileCore at h
  rw [List.mem_filter] at h
  obtain ⟨hmem, hkeep⟩ := h
  rcases mem_replaceChar hmem with h | ⟨hmem2, hsp⟩
  · rw [h]; exact fileQ_hyphen
  · rw [List.mem_map] at hmem2
    obtain ⟨d, hd, rfl⟩ := hmem2
    obtain ⟨_, hnord⟩ := mem_removeNordic hd
    rw [nordic_contains_false_iff] at hnord
    rcases pyToLower_spec d with ⟨h, _⟩ | ⟨h, _⟩ | ⟨h, _⟩ |
      ⟨_, _, _, hl, hu, hv⟩ | ⟨_, _, _, _, hfix⟩
    · omega
    · omega
    · omega
    · refine ⟨hkeep, ?_, ?_, ?_⟩
      · rw [nordic_contains_false_iff]; omega
      · rw [char_ne_space_iff]; omega
      · apply pyToLower_fix <;> omega
    · rw [hfix]
      rw [hfix] at hkeep hsp
      exact ⟨hkeep, by rw [nordic_contains_false_iff]; exact hnord, hsp, hfix⟩

theorem fileQ_mem_collapse {l : List Char} {c : Char}
    (h : c ∈ collapseHyphens (fileCore l)) : FileQ c := by
  unfold collapseHyphens at h
  rcases mem_intercalate_sep h with h | ⟨p, hp, hcp⟩
  · rw [h]; exact fileQ_hyphen
  · rw [List.mem_filter] at hp
    exact fileQ_mem_fileCore (splitOn_part_mem hp.1 hcp).1

theorem fileCore_eq_self {l : List Char} (h : ∀ c ∈ l, FileQ c) : fileCore l = l := by
  unfold fileCore
  rw [removeNordic_eq_self (fun c hc => (h c hc).2.1)]
  rw [map_eq_self_of (fun c hc => (h c hc).2.2.2)]
  rw [replaceChar_eq_self (fun c hc => (h c hc).2.2.1)]
  exact filter_eq_self_of (fun c hc => (h c hc).1)

theorem collapseHyphens_of_collapse (l : List Char) :
    collapseHyphens (collapseHyphens l) = collapseHyphens l := by
  show List.intercalate ['-'] (((collapseHyphens l).splitOn '-').filter
      (fun part => !part.isEmpty)) = collapseHyphens l
  unfold collapseHyphens
  rw [collapse_idem]
  · intro p hp
    rw [List.mem_filter] at hp
    intro hnil
    rw [hnil] at hp
    simp at hp
  · intro p hp hmem
    rw [List.mem_filter] at hp
    exact absurd rfl (splitOn_part_mem hp.1 hmem).2

theorem sanitize_filename_idem (s : String) :
    sanitize_filename (sanitize_filename s) = sanitize_filename s := by
  rw [sanitize_filename_eq, sanitize_filename_eq]
  apply congrArg String.mk
  show collapseHyphens (fileCore (collapseHyphens (fileCore s.data))) =
    collapseHyphens (fileCore s.data)
  rw [fileCore_eq_self (fun c hc => fileQ_mem_collapse hc)]
  exact collapseHyphens_of_collapse _

/-! ### Whitespace-trim invariance of the metadata sanitizer -/

theorem pyIsSpace_iff (c : Char) :
    pyIsSpace c = true ↔
      c.toNat = 32 ∨ c.toNat = 9 ∨ c.toNat = 10 ∨ c.toNat = 13 ∨
        c.toNat = 11 ∨ c.toNat = 12 := by
  have h1 : (' ').toNat = 32 := rfl
  have h2 : ('\t').toNat = 9 := rfl
  have h3 : ('\n').toNat = 10 := rfl
  have h4 : ('\r').toNat = 13 := rfl
  have h5 : (Char.ofNat 11).toNat = 11 := char_ofNat_toNat 11 (Or.inl (by omega))
  have h6 : (Char.ofNat 12).toNat = 12 := char_ofNat_toNat 12 (Or.inl (by omega))
  simp only [pyIsSpace, Bool.or_eq_true, beq_iff_eq, char_eq_iff_toNat, h1, h2, h3, h4, h5, h6]
  omega

theorem metaCore_append (l₁ l₂ : List Char) :
    metaCore (l₁ ++ l₂) = metaCore l₁ ++ metaCore l₂ := by
  unfold metaCore replaceChar removeNordic
  simp [List.filter_append]

theorem metaCore_ws_underscores {w : List Char} (hw : ∀ c ∈ w, pyIsSpace c = true) :
    ∀ c ∈ metaCore w, c = '_' := by
  intro c hc
  unfold metaCore at hc
  rw [List.mem_map] at hc
  obtain ⟨d, hd, rfl⟩ := hc
  rw [List.mem_filter] at hd
  obtain ⟨hd1, hkeep⟩ := hd
  obtain ⟨hd2, _⟩ := mem_removeNordic hd1
  rcases mem_replaceChar hd2 with h | ⟨hdw, hne⟩
  · rw [h]; rfl
  · exfalso
    have hsp := (pyIsSpace_iff d).mp (hw d hdw)
    rw [char_ne_space_iff] at hne
    have hk := (metaKeep_iff d).mp hkeep
    omega

theorem ws_decomp (l : List Char) :
    ∃ u v, l = u ++ pyStripWs l ++ v ∧
      (∀ c ∈ u, pyIsSpace c = true) ∧ (∀ c ∈ v, pyIsSpace c = true) := by
  refine ⟨l.takeWhile pyIsSpace,
    ((l.dropWhile pyIsSpace).reverse.takeWhile pyIsSpace).reverse, ?_, ?_, ?_⟩
  · show l = _ ++ pyStripBy pyIsSpace l ++ _
    unfold pyStripBy
    conv_lhs => rw [← List.takeWhile_append_dropWhile pyIsSpace l]
    rw [List.append_assoc]
    apply congrArg
    conv_lhs => rw [← List.reverse_reverse (l.dropWhile pyIsSpace)]
    conv_lhs =>
      rw [← List.takeWhile_append_dropWhile pyIsSpace (l.dropWhile pyIsSpace).reverse]
    rw [List.reverse_append]
  · intro c hc
    exact List.mem_takeWhile_imp hc
  · intro c hc
    rw [List.mem_reverse] at hc
    exact List.mem_takeWhile_imp hc

theorem sanitize_for_metadata_trim (s : String) :
    sanitize_for_metadata ⟨pyStripWs s.data⟩ = sanitize_for_metadata s := by
  obtain ⟨u, v, hdecomp, hu, hv⟩ := ws_decomp s.data
  rw [sanitize_for_metadata_eq, sanitize_for_metadata_eq]
  apply congrArg String.mk
  show pyStripChars metaStripSet (metaCore (pyStripWs s.data)) =
    pyStripChars metaStripSet (metaCore s.data)
  conv_rhs => rw [hdecomp, metaCore_append, metaCore_append]
  unfold pyStripChars
  rw [pyStripBy_sandwich (metaCore (pyStripWs s.data))
    (fun c hc => by rw [metaCore_ws_underscores hu c hc]; rfl)
    (fun c hc => by rw [metaCore_ws_underscores hv c hc]; rfl)]

/-! ### Owner sanitizer versus metadata sanitizer -/

theorem ownerKeep_eq_metaKeep {c : Char} (h1 : c ≠ ':') (h2 : c ≠ '/') :
    ownerKeep c = metaKeep c := by
  have e : ownerKeep c = (metaKeep c || c == ':' || c == '/') := rfl
  rw [e, beq_eq_false_iff_ne.mpr h1, beq_eq_false_iff_ne.mpr h2,
    Bool.or_false, Bool.or_false]

theorem owner_meta_strip {s : String} (h : ∀ c ∈ s.data, c ≠ ':' ∧ c ≠ '/') :
    sanitize_for_metadata s = ⟨pyStripChars metaStripSet (sanitize_for_owner s).data⟩ := by
  rw [sanitize_for_metadata_eq, sanitize_for_owner_eq]
  apply congrArg String.mk
  show pyStripChars metaStripSet (metaCore s.data) =
    pyStripChars metaStripSet (ownerCore s.data)
  suffices hcore : metaCore s.data = ownerCore s.data by rw [hcore]
  unfold metaCore ownerCore
  apply congrArg
  apply List.filter_congr
  intro c hc
  obtain ⟨hc2, _⟩ := mem_removeNordic hc
  rcases mem_replaceChar hc2 with h3 | ⟨hmem, _⟩
  · rw [h3]
    exact (ownerKeep_eq_metaKeep (by decide) (by decide)).symm
  · exact (ownerKeep_eq_metaKeep (h c hmem).1 (h c hmem).2).symm

/-! ### Data model

A `Func` is the in-memory record built by `read_csv_data`: id, name, path,
team, beskrivelse (description), kritikalitet (criticality) and the parsed
dependency-id list. -/

structure Func where
  id : String
  name : String
  path : String
  team : String
  beskrivelse : String
  kritikalitet : String
  dependencies : List String
deriving DecidableEq

/-- The `metadata` block of an emitted function document. -/
structure FuncMetadata where
  name : String
  title : String
  description : String
deriving DecidableEq

/-- The `spec` block of an emitted function document. -/
structure FuncSpec where
  owner : String
  criticality : String
  parentFunction : Option String
  dependsOnFunctions : List String
deriving DecidableEq

/-- An emitted function document (`create_yaml_structure` output). -/
structure FunctionDoc where
  apiVersion : String
  kind : String
  metadata : FuncMetadata
  spec : FuncSpec
deriving DecidableEq

/-! ### Resolver -/

/-- The id-to-sanitized-name dictionary built by `resolve_dependencies`.
Python dict assignment overwrites, so a later record with the same id wins. -/
def id_to_name (functions : List Func) : String → Option String :=
  functions.foldl
    (fun m func => fun key =>
      if key = func.id then some (sanitize_for_metadata func.name) else m key)
    (fun _ => none)

/-- `resolve_dependencies` from `csv_to_yaml.py`.  The source mutates each
record in place and prints a warning per unresolved id; the model returns the
rewritten records together with the list of warnings, each identifying the
owning record's name and the unresolved dependency id. -/
def resolve_dependencies (functions : List Func) : List Func × List (String × String) :=
  let m := id_to_name functions
  (functions.map (fun func =>
      { func with
        dependencies := func.dependencies.map (fun depId =>
          match m depId with
          | some funcName => funcName
          | none => depId) }),
   functions.flatMap (fun func =>
      func.dependencies.filterMap (fun depId =>
        match m depId with
        | some _ => none
        | none => some (func.name, depId))))

/-- Python `path.split('.')` on the char level. -/
def pySplitDot (p : String) : List (List Char) :=
  p.data.splitOn '.'

/-- `len(path.split('.'))`, the depth measure used throughout the script. -/
def path_depth (p : String) : Nat :=
  (pySplitDot p).length

/-- `'.'.join(path_parts[:-1])`: the parent path of a path. -/
def parentPathOf (p : String) : String :=
  ⟨List.intercalate ['.'] (pySplitDot p).dropLast⟩

/-- The first `k` dot-segments of a path, joined with `'.'` again. -/
def ancestorPath (p : String) (k : Nat) : String :=
  ⟨List.intercalate ['.'] ((pySplitDot p).take k)⟩

/-- `find_parent_function` from `csv_to_yaml.py`: paths of at most two
segments get the root sentinel; otherwise the first record whose path equals
the parent path provides the (metadata-sanitized) parent name, and `none`
models Python's `return None` when no record matches. -/
def find_parent_function (current_path : String) (all_functions : List Func) : Option String :=
  if path_depth current_path ≤ 2 then some "rootfunction"
  else
    match all_functions.find? (fun func => func.path == parentPathOf current_path) with
    | some func => some (sanitize_for_metadata func.name)
    | none => none

/-- `find_child_functions` from `csv_to_yaml.py`: records whose path starts
with `current_path + "."` and is exactly one level deeper. -/
def find_child_functions (current_path : String) (all_functions : List Func) : List Func :=
  all_functions.filter (fun func =>
    (current_path.data ++ ['.']).isPrefixOf func.path.data &&
      path_depth func.path == path_depth current_path + 1)

/-- The team-mapping step of `main`: replace the team id by the mapped display
name when present, keep the raw id otherwise. -/
def map_team (team_mapping : String → Option String) (team_id : String) : String :=
  match team_mapping team_id with
  | some team_name => team_name
  | none => team_id

/-! ### Emitter -/

/-- `create_yaml_structure` from `csv_to_yaml.py`. -/
def create_yaml_structure (function : Func) (parent_function : Option String) : FunctionDoc :=
  let original_name : String := ⟨pyStripWs function.name.data⟩
  let metadata_name := sanitize_for_metadata original_name
  let team_value := function.team
  let sanitized_owner :=
    if team_value == "group:default/kartverket" || team_value == "kartverket" then
      "group:default/statens_kartverk"
    else sanitize_for_owner team_value
  { apiVersion := "kartverket.dev/v1alpha1"
    kind := "Function"
    metadata :=
      { name := metadata_name
        title := original_name
        description := if function.beskrivelse == "" then "" else function.beskrivelse }
    spec :=
      { owner := sanitized_owner
        criticality := if function.kritikalitet == "" then "" else function.kritikalitet
        parentFunction := parent_function
        dependsOnFunctions := function.dependencies } }

/-- One write performed by `write_yaml_files_hierarchically`: the file path
(as segments relative to the output directory), the record written, and the
document serialized into the file. -/
structure WrittenFile where
  relPath : List String
  func : Func
  doc : FunctionDoc
deriving DecidableEq

/-- The largest segment count of any record path; bounds the recursion depth
of `write_function_recursively`. -/
def max_depth (functions : List Func) : Nat :=
  functions.foldr (fun func acc => max (path_depth func.path) acc) 0

/-- `write_function_recursively` from `csv_to_yaml.py`.  The Python recursion
descends from a record to its children, which are exactly one level deeper and
drawn from the fixed record list, so its depth is bounded by the greatest path
depth; the `fuel` argument makes that termination measure explicit and is
called with more fuel than that bound.  Each call writes the record's own
document into `parent_dir / func_name / (func_name ++ ".yaml")` and recurses
into the children in list order. -/
def write_function_recursively (functions : List Func) :
    Nat → Func → List String → List WrittenFile
  | 0, _, _ => []
  | fuel + 1, function, parent_dir =>
    let func_name := sanitize_filename function.name
    let child_functions_list := find_child_functions function.path functions
    let func_folder := parent_dir ++ [func_name]
    let yaml_file := func_folder ++ [func_name ++ ".yaml"]
    let parent_function := find_parent_function function.path functions
    { relPath := yaml_file
      func := function
      doc := create_yaml_structure function parent_function } ::
      child_functions_list.flatMap
        (fun child => write_function_recursively functions fuel child func_folder)

/-- `write_yaml_files_hierarchically` from `csv_to_yaml.py`: process every
top-level record (exactly two path segments) in list order. -/
def write_yaml_files_hierarchically (functions : List Func) : List WrittenFile :=
  let top_level_functions := functions.filter (fun func => path_depth func.path == 2)
  top_level_functions.flatMap (fun top_func =>
    write_function_recursively functions (max_depth functions + 1) top_func [])

/-- The `spec` block of the aggregate locations document. -/
structure LocSpec where
  type : String
  targets : List String
deriving DecidableEq

/-- The aggregate `catalog-info.yaml` document, including the `# nonk8s`
marker comment written above it. -/
structure LocationsDoc where
  marker : String
  apiVersion : String
  kind : String
  metadataName : String
  spec : LocSpec
deriving DecidableEq

/-- Rendering of one created file path relative to the output directory,
prefixed as `f"./{rel_path}"`. -/
def renderRelPath (p : List String) : String :=
  "./" ++ String.intercalate "/" p

/-- `write_locations_file` from `csv_to_yaml.py`: one `./`-prefixed relative
path per created file, sorted (`relative_paths.sort()`), under the fixed
Location schema.  All created files live below the output directory, so the
`relative_to` conversion always succeeds and is modelled by `renderRelPath`. -/
def write_locations_file (created_files : List (List String)) : LocationsDoc :=
  let relative_paths := created_files.map renderRelPath
  let sorted_paths := relative_paths.mergeSort
  { marker := "# nonk8s"
    apiVersion := "backstage.io/v1alpha1"
    kind := "Location"
    metadataName := "Functions"
    spec := { type := "url", targets := sorted_paths } }

/-! ### Characterizing the id-to-name dictionary -/

theorem id_to_name_append (l : List Func) (f : Func) (key : String) :
    id_to_name (l ++ [f]) key =
      if key = f.id then some (sanitize_for_metadata f.name) else id_to_name l key := by
  unfold id_to_name
  rw [List.foldl_append]
  rfl

theorem id_to_name_eq_find (functions : List Func) (key : String) :
    id_to_name functions key =
      (functions.reverse.find? (fun func => func.id == key)).map
        (fun func => sanitize_for_metadata func.name) := by
  induction functions using List.reverseRecOn with
  | nil => rfl
  | append_singleton l f ih =>
    rw [id_to_name_append, List.reverse_append]
    simp only [List.reverse_cons, List.reverse_nil, List.nil_append, List.singleton_append]
    by_cases h : f.id = key
    · rw [if_pos h.symm, List.find?_cons_of_pos _ (by simp [h])]
      rfl
    · rw [if_neg (fun hk => h hk.symm), List.find?_cons_of_neg _ (by simp [h])]
      exact ih

theorem id_to_name_none {functions : List Func} {d : String}
    (h : ∀ f ∈ functions, f.id ≠ d) : id_to_name functions d = none := by
  rw [id_to_name_eq_find, List.find?_eq_none.mpr]
  · rfl
  · intro f hf
    simp [h f (List.mem_reverse.mp hf)]

theorem id_to_name_last {l₁ l₂ : List Func} {Y : Func}
    (h : ∀ Z ∈ l₂, Z.id ≠ Y.id) :
    id_to_name (l₁ ++ Y :: l₂) Y.id = some (sanitize_for_metadata Y.name) := by
  rw [id_to_name_eq_find]
  have hrev : (l₁ ++ Y :: l₂).reverse = l₂.reverse ++ (Y :: l₁.reverse) := by
    rw [List.reverse_append, List.reverse_cons, List.append_assoc, List.singleton_append]
  rw [hrev, List.find?_append, List.find?_eq_none.mpr
    (fun f hf => by simp [h f (List.mem_reverse.mp hf)])]
  rw [List.find?_cons_of_pos _ (by simp)]
  rfl

theorem resolve_dependencies_fst (functions : List Func) :
    (resolve_dependencies functions).1 = functions.map (fun func =>
      { func with
        dependencies := func.dependencies.map (fun depId =>
          match id_to_name functions depId with
          | some funcName => funcName
          | none => depId) }) := rfl

theorem resolve_dependencies_snd (functions : List Func) :
    (resolve_dependencies functions).2 = functions.flatMap (fun func =>
      func.dependencies.filterMap (fun depId =>
        match id_to_name functions depId with
        | some _ => none
        | none => some (func.name, depId))) := rfl

/-! ### Path and tree lemmas for the emitter -/

theorem splitOnP_sep_append {α : Type} {p : α → Bool} {c : α} (hc : p c = true)
    (A T : List α) : (A ++ c :: T).splitOnP p = A.splitOnP p ++ T.splitOnP p := by
  induction A with
  | nil =>
    simp only [List.nil_append, List.splitOnP_cons, if_pos hc, List.splitOnP_nil]
    rfl
  | cons a A ih =>
    rw [List.cons_append, List.splitOnP_cons, List.splitOnP_cons]
    by_cases ha : p a = true
    · rw [if_pos ha, if_pos ha, ih, List.cons_append]
    · rw [if_neg ha, if_neg ha, ih]
      cases hsp : A.splitOnP p with
      | nil => exact absurd hsp (List.splitOnP_ne_nil p A)
      | cons h0 r => simp

theorem splitOn_dot_append (A T : List Char) :
    (A ++ '.' :: T).splitOn '.' = A.splitOn '.' ++ T.splitOn '.' :=
  splitOnP_sep_append rfl A T

theorem ancestorPath_full (p : String) : ancestorPath p (path_depth p) = p := by
  unfold ancestorPath path_depth
  rw [List.take_length]
  show String.mk (List.intercalate ['.'] (p.data.splitOn '.')) = p
  rw [List.intercalate_splitOn p.data '.']

theorem parentPathOf_eq_ancestor (p : String) :
    parentPathOf p = ancestorPath p (path_depth p - 1) := by
  unfold parentPathOf ancestorPath path_depth
  rw [List.dropLast_eq_take]

theorem isPrefixOf_exists {l₁ l₂ : List Char} (h : l₁.isPrefixOf l₂ = true) :
    ∃ t, l₂ = l₁ ++ t := by
  induction l₁ generalizing l₂ with
  | nil => exact ⟨l₂, rfl⟩
  | cons a l ih =>
    cases l₂ with
    | nil => simp [List.isPrefixOf] at h
    | cons b t =>
      simp only [List.isPrefixOf_cons₂, Bool.and_eq_true, beq_iff_eq] at h
      obtain ⟨t2, ht2⟩ := ih h.2
      exact ⟨t2, by rw [List.cons_append, ← h.1, ← ht2]⟩

/-- The invariant maintained along the emitter's recursive walk: the record is
one of the loaded records, its depth is at least two, and every dot-prefix of
its path of at least two segments is some record's full path. -/
def GoodFunc (functions : List Func) (f : Func) : Prop :=
  f ∈ functions ∧ 2 ≤ path_depth f.path ∧
    ∀ k, 2 ≤ k → k ≤ path_depth f.path →
      ∃ g ∈ functions, g.path = ancestorPath f.path k

theorem good_child {functions : List Func} {f c : Func}
    (hf : GoodFunc functions f)
    (hc : c ∈ find_child_functions f.path functions) : GoodFunc functions c := by
  unfold find_child_functions at hc
  rw [List.mem_filter, Bool.and_eq_true] at hc
  obtain ⟨hcmem, hpre, hdep⟩ := hc
  obtain ⟨T, hT⟩ := isPrefixOf_exists hpre
  rw [List.append_assoc, List.singleton_append] at hT
  have hsplit : pySplitDot c.path = pySplitDot f.path ++ T.splitOn '.' := by
    unfold pySplitDot
    rw [hT, splitOn_dot_append]
  have hdep2 : path_depth c.path = path_depth f.path + 1 := by
    simpa using hdep
  obtain ⟨hfmem, hfdep, hfanc⟩ := hf
  refine ⟨hcmem, by omega, ?_⟩
  intro k hk2 hkle
  by_cases hkf : k ≤ path_depth f.path
  · obtain ⟨g, hg, hgp⟩ := hfanc k hk2 hkf
    refine ⟨g, hg, ?_⟩
    rw [hgp]
    unfold ancestorPath
    rw [hsplit, List.take_append_of_le_length hkf]
  · have hkc : k = path_depth c.path := by omega
    refine ⟨c, hcmem, ?_⟩
    rw [hkc, ancestorPath_full]

theorem writeRec_good (functions : List Func) :
    ∀ fuel (f : Func) (dir : List String) (e : WrittenFile),
      e ∈ write_function_recursively functions fuel f dir →
      GoodFunc functions f → GoodFunc functions e.func := by
  intro fuel
  induction fuel with
  | zero =>
    intro f dir e he _
    simp [write_function_recursively] at he
  | succ n ih =>
    intro f dir e he hf
    simp only [write_function_recursively] at he
    rcases List.mem_cons.mp he with h | h
    · rw [h]
      exact hf
    · rw [List.mem_flatMap] at h
      obtain ⟨child, hchild, he2⟩ := h
      exact ih child _ e he2 (good_child hf hchild)

theorem emitted_good {functions : List Func} {e : WrittenFile}
    (he : e ∈ write_yaml_files_hierarchically functions) : GoodFunc functions e.func := by
  unfold write_yaml_files_hierarchically at he
  rw [List.mem_flatMap] at he
  obtain ⟨top, htop, he2⟩ := he
  rw [List.mem_filter] at htop
  have htdep : path_depth top.path = 2 := by
    have h2 := htop.2
    simpa using h2
  apply writeRec_good functions _ top [] e he2
  refine ⟨htop.1, by omega, ?_⟩
  intro k hk2 hkle
  have hk : k = 2 := by omega
  subst hk
  refine ⟨top, htop.1, ?_⟩
  rw [show (2 : Nat) = path_depth top.path from htdep.symm, ancestorPath_full]

/-! ### Claims -/

/-- Claim C6: each of the three sanitizer variants (filename form,
metadata-name form, owner form) is idempotent: applying it to its own output
yields the same result as applying it once. -/
theorem claim_C6_sanitizer_idempotence (s : String) :
    sanitize_filename (sanitize_filename s) = sanitize_filename s ∧
    sanitize_for_metadata (sanitize_for_metadata s) = sanitize_for_metadata s ∧
    sanitize_for_owner (sanitize_for_owner s) = sanitize_for_owner s :=
  ⟨sanitize_filename_idem s, sanitize_for_metadata_idem s, sanitize_for_owner_idem s⟩

/-- Claim C9: references to a record in `spec.parentFunction` and
`spec.dependsOnFunctions` sanitize the raw name, while `metadata.name`
sanitizes the whitespace-trimmed name; they agree because the metadata
sanitizer yields equal outputs on any string and on its whitespace-trimmed
form, so every emitted document's `metadata.name` equals the metadata
sanitizer applied to the raw name. -/
theorem claim_C9_trim_invariance (s : String) (f : Func) (p : Option String) :
    sanitize_for_metadata ⟨pyStripWs s.data⟩ = sanitize_for_metadata s ∧
    (create_yaml_structure f p).metadata.name = sanitize_for_metadata f.name :=
  ⟨sanitize_for_metadata_trim s, sanitize_for_metadata_trim f.name⟩

/-- Claim C3 (counterexample): the input "." contains no colon and no slash,
yet the owner sanitizer and the metadata-name sanitizer disagree on it,
because the owner sanitizer performs no final strip. -/
theorem claim_C3_counterexample :
    (∀ c ∈ (".").data, c ≠ ':' ∧ c ≠ '/') ∧
    sanitize_for_owner "." ≠ sanitize_for_metadata "." := by
  decide

/-- Claim C3 (amended): the owner sanitizer is the metadata-name sanitizer
with colon and forward-slash additionally kept, except that it does not strip
leading/trailing `.`, `-`, `_`, backslash; for every input without colon and
slash, the metadata output equals the owner output with that strip applied. -/
theorem claim_C3_amended (s : String) (h : ∀ c ∈ s.data, c ≠ ':' ∧ c ≠ '/') :
    sanitize_for_metadata s = ⟨pyStripChars metaStripSet (sanitize_for_owner s).data⟩ :=
  owner_meta_strip h

/-- Witness for claim C3 (amended) at the concrete input " .Foo-". -/
theorem claim_C3_witness :
    (∀ c ∈ (" .Foo-").data, c ≠ ':' ∧ c ≠ '/') ∧
    sanitize_for_metadata " .Foo-" =
      ⟨pyStripChars metaStripSet (sanitize_for_owner " .Foo-").data⟩ :=
  ⟨by decide, claim_C3_amended " .Foo-" (by decide)⟩

/-- Claim C4: whenever the team value after the team-name mapping step (the
mapped display name when present, otherwise the raw identifier) equals exactly
"kartverket" or "group:default/kartverket", the emitted document's
`spec.owner` is "group:default/statens_kartverk", regardless of the mapping
lookup result. -/
theorem claim_C4_team_override (team_mapping : String → Option String) (f : Func)
    (p : Option String)
    (h : map_team team_mapping f.team = "kartverket" ∨
      map_team team_mapping f.team = "group:default/kartverket") :
    (create_yaml_structure { f with team := map_team team_mapping f.team } p).spec.owner =
      "group:default/statens_kartverk" := by
  unfold create_yaml_structure
  rcases h with h | h <;> rw [h] <;> rfl

/-- The record used by the claim C4 witness. -/
def c4Func : Func :=
  { id := "F1", name := "Registry", path := "1.1", team := "kartverket",
    beskrivelse := "", kritikalitet := "", dependencies := [] }

/-- Witness for claim C4: a record whose raw team id misses the mapping and
equals "kartverket". -/
theorem claim_C4_witness :
    (map_team (fun _ => none) c4Func.team = "kartverket" ∨
      map_team (fun _ => none) c4Func.team = "group:default/kartverket") ∧
    (create_yaml_structure { c4Func with team := map_team (fun _ => none) c4Func.team }
      none).spec.owner = "group:default/statens_kartverk" :=
  ⟨Or.inl (by decide), claim_C4_team_override (fun _ => none) c4Func none (Or.inl (by decide))⟩

/-- Claim C10: when several loaded records share an id, dependency resolution
maps that id to the metadata-sanitized name of the record occurring last in
registry file order, for every dependency that references that id. -/
theorem claim_C10_last_wins (functions : List Func) (d : String) (r : Func)
    (hlast : functions.reverse.find? (fun func => func.id == d) = some r) :
    id_to_name functions d = some (sanitize_for_metadata r.name) ∧
    ∀ (j : Nat) (func : Func) (i : Nat), functions[j]? = some func →
      func.dependencies[i]? = some d →
      ∃ func2 : Func, (resolve_dependencies functions).1[j]? = some func2 ∧
        func2.dependencies[i]? = some (sanitize_for_metadata r.name) := by
  have hmap : id_to_name functions d = some (sanitize_for_metadata r.name) := by
    rw [id_to_name_eq_find, hlast]
    rfl
  refine ⟨hmap, ?_⟩
  intro j func i hj hi
  rw [resolve_dependencies_fst]
  refine ⟨{ func with
      dependencies := func.dependencies.map (fun depId =>
        match id_to_name functions depId with
        | some funcName => funcName
        | none => depId) }, ?_, ?_⟩
  · rw [List.getElem?_map _ functions j, hj]
    rfl
  · show (func.dependencies.map _)[i]? = _
    rw [List.getElem?_map _ func.dependencies i, hi, Option.map_some', hmap]

/-- Record fixture for the claim C10 witness: the earlier record with id "D". -/
def c10FuncA : Func :=
  { id := "D", name := "Alpha", path := "2.1", team := "t",
    beskrivelse := "", kritikalitet := "", dependencies := [] }

/-- Record fixture for the claim C10 witness: the later record with id "D". -/
def c10FuncB : Func :=
  { id := "D", name := "Beta", path := "3.1", team := "t",
    beskrivelse := "", kritikalitet := "", dependencies := [] }

/-- Record fixture for the claim C10 witness: a record depending on "D". -/
def c10FuncX : Func :=
  { id := "X", name := "Xname", path := "1.1", team := "t",
    beskrivelse := "", kritikalitet := "", dependencies := ["D"] }

/-- Registry fixture for the claim C10 witness. -/
def c10Funcs : List Func := [c10FuncX, c10FuncA, c10FuncB]

/-- Witness for claim C10: two records share id "D"; resolution uses the later
record's sanitized name for the depending record's first dependency. -/
theorem claim_C10_witness :
    id_to_name c10Funcs "D" = some (sanitize_for_metadata c10FuncB.name) ∧
    ∃ func2 : Func, (resolve_dependencies c10Funcs).1[0]? = some func2 ∧
      func2.dependencies[0]? = some (sanitize_for_metadata c10FuncB.name) := by
  have h := claim_C10_last_wins c10Funcs "D" c10FuncB (by decide)
  exact ⟨h.1, h.2 0 c10FuncX 0 (by decide) (by decide)⟩

/-- Claim C2 (counterexample): with two loaded records sharing one id, record
X's dependency on that id is not rendered as the sanitized name of the earlier
record carrying it, falsifying the claim's universal quantification over
record pairs. -/
theorem claim_C2_counterexample :
    ((c10FuncA ∈ c10Funcs ∧ c10FuncX ∈ c10Funcs) ∧
      c10FuncX.dependencies[0]? = some c10FuncA.id) ∧
    (∃ e ∈ write_yaml_files_hierarchically (resolve_dependencies c10Funcs).1,
      e.func.id = c10FuncX.id) ∧
    ∀ e ∈ write_yaml_files_hierarchically (resolve_dependencies c10Funcs).1,
      e.func.id = c10FuncX.id →
        e.doc.spec.dependsOnFunctions[0]? ≠ some (sanitize_for_metadata c10FuncA.name) := by
  decide

/-- Claim C2 (amended): if X's dependency list contains Y's id at position i
and no later record shares Y's id, the emitted document for X carries the
metadata-sanitized name of Y at the same position, with the list length (hence
order, without deduplication) preserved; this holds regardless of whether Y
appears before or after X in the registry. -/
theorem claim_C2_dependency_roundtrip (l₁ l₂ : List Func) (Y X : Func) (j i : Nat)
    (hlater : ∀ Z ∈ l₂, Z.id ≠ Y.id)
    (hX : (l₁ ++ Y :: l₂)[j]? = some X)
    (hdep : X.dependencies[i]? = some Y.id) :
    ∃ X2 : Func, (resolve_dependencies (l₁ ++ Y :: l₂)).1[j]? = some X2 ∧
      X2.dependencies[i]? = some (sanitize_for_metadata Y.name) ∧
      X2.dependencies.length = X.dependencies.length ∧
      ∀ p, (create_yaml_structure X2 p).spec.dependsOnFunctions[i]? =
        some (sanitize_for_metadata Y.name) := by
  have hmap := @id_to_name_last l₁ l₂ Y hlater
  have hdeps : (X.dependencies.map (fun depId =>
      match id_to_name (l₁ ++ Y :: l₂) depId with
      | some funcName => funcName
      | none => depId))[i]? = some (sanitize_for_metadata Y.name) := by
    rw [List.getElem?_map _ X.dependencies i, hdep, Option.map_some', hmap]
  rw [resolve_dependencies_fst]
  refine ⟨{ X with
      dependencies := X.dependencies.map (fun depId =>
        match id_to_name (l₁ ++ Y :: l₂) depId with
        | some funcName => funcName
        | none => depId) }, ?_, hdeps, List.length_map .., fun p => hdeps⟩
  rw [List.getElem?_map _ (l₁ ++ Y :: l₂) j, hX]
  rfl

/-- Witness for claim C2 (amended): the dependency "D" of the first record
resolves to the sanitized name of the unique record with that id, which occurs
later in the file. -/
theorem claim_C2_witness :
    ∃ X2 : Func, (resolve_dependencies ([c10FuncX] ++ c10FuncB :: [])).1[0]? = some X2 ∧
      X2.dependencies[0]? = some (sanitize_for_metadata c10FuncB.name) ∧
      X2.dependencies.length = c10FuncX.dependencies.length ∧
      ∀ p, (create_yaml_structure X2 p).spec.dependsOnFunctions[0]? =
        some (sanitize_for_metadata c10FuncB.name) :=
  claim_C2_dependency_roundtrip [c10FuncX] [] c10FuncB c10FuncX 0 0
    (by decide) (by decide) (by decide)

/-- Claim C7: a dependency id matching no record's id produces a warning
naming the owning record and the id, and the id is kept verbatim at its
original position in the emitted document's dependency list. -/
theorem claim_C7_unresolved_dependency (functions : List Func) (X : Func) (d : String)
    (j i : Nat) (hno : ∀ f ∈ functions, f.id ≠ d)
    (hX : functions[j]? = some X) (hdep : X.dependencies[i]? = some d) :
    (X.name, d) ∈ (resolve_dependencies functions).2 ∧
    ∃ X2 : Func, (resolve_dependencies functions).1[j]? = some X2 ∧
      X2.dependencies[i]? = some d ∧
      X2.dependencies.length = X.dependencies.length ∧
      ∀ p, (create_yaml_structure X2 p).spec.dependsOnFunctions[i]? = some d := by
  have hnone : id_to_name functions d = none := id_to_name_none hno
  have hmemX : X ∈ functions := by
    obtain ⟨hlt, rfl⟩ := List.getElem?_eq_some.mp hX
    exact List.getElem_mem hlt
  have hdmem : d ∈ X.dependencies := by
    obtain ⟨hlt, rfl⟩ := List.getElem?_eq_some.mp hdep
    exact List.getElem_mem hlt
  have hdeps : (X.dependencies.map (fun depId =>
      match id_to_name functions depId with
      | some funcName => funcName
      | none => depId))[i]? = some d := by
    rw [List.getElem?_map _ X.dependencies i, hdep, Option.map_some', hnone]
  constructor
  · rw [resolve_dependencies_snd, List.mem_flatMap]
    refine ⟨X, hmemX, ?_⟩
    rw [List.mem_filterMap]
    refine ⟨d, hdmem, ?_⟩
    show (match id_to_name functions d with
      | some _ => none
      | none => some (X.name, d)) = some (X.name, d)
    rw [hnone]
  · rw [resolve_dependencies_fst]
    refine ⟨{ X with
        dependencies := X.dependencies.map (fun depId =>
          match id_to_name functions depId with
          | some funcName => funcName
          | none => depId) }, ?_, hdeps, List.length_map .., fun p => hdeps⟩
    rw [List.getElem?_map _ functions j, hX]
    rfl

/-- Record fixture for the claim C7 witness: a record with a dangling
dependency id. -/
def c7Func : Func :=
  { id := "A", name := "Root one", path := "1.1", team := "t",
    beskrivelse := "", kritikalitet := "", dependencies := ["GHOST"] }

/-- Witness for claim C7: the dependency id "GHOST" matches no record. -/
theorem claim_C7_witness :
    (c7Func.name, "GHOST") ∈ (resolve_dependencies [c7Func]).2 ∧
    ∃ X2 : Func, (resolve_dependencies [c7Func]).1[0]? = some X2 ∧
      X2.dependencies[0]? = some "GHOST" ∧
      X2.dependencies.length = c7Func.dependencies.length ∧
      ∀ p, (create_yaml_structure X2 p).spec.dependsOnFunctions[0]? = some "GHOST" :=
  claim_C7_unresolved_dependency [c7Func] c7Func "GHOST" 0 0
    (by decide) (by decide) (by decide)

/-- Claim C8: a record is written to the output tree (and hence listed in the
aggregate) only if its path has at least two dot-segments and, for every k
from 2 up to its segment count, the first k segments joined by '.' equal some
record's full path; a record missing any such ancestor, or with fewer than two
segments, yields no written file. -/
theorem claim_C8_emission_requires_ancestors (functions : List Func) (f : Func)
    (h : ∃ e ∈ write_yaml_files_hierarchically functions, e.func = f) :
    2 ≤ path_depth f.path ∧
    ∀ k, 2 ≤ k → k ≤ path_depth f.path →
      ∃ g ∈ functions, g.path = ancestorPath f.path k := by
  obtain ⟨e, he, hef⟩ := h
  have hg := emitted_good he
  rw [hef] at hg
  exact ⟨hg.2.1, hg.2.2⟩

/-- Record fixture for the claim C8 witness: a top-level record. -/
def c8Top : Func :=
  { id := "T", name := "Top", path := "1.1", team := "t",
    beskrivelse := "", kritikalitet := "", dependencies := [] }

/-- Record fixture for the claim C8 witness: a depth-three record whose
ancestors all exist. -/
def c8Child : Func :=
  { id := "C", name := "Child", path := "1.1.2", team := "t",
    beskrivelse := "", kritikalitet := "", dependencies := [] }

/-- Registry fixture for the claim C8 witness. -/
def c8Funcs : List Func := [c8Top, c8Child]

/-- Witness for claim C8: the depth-three record is written, so its depth-two
ancestor path matches a record. -/
theorem claim_C8_witness :
    2 ≤ path_depth c8Child.path ∧
    ∃ g ∈ c8Funcs, g.path = ancestorPath c8Child.path 2 := by
  have h := claim_C8_emission_requires_ancestors c8Funcs c8Child (by decide)
  exact ⟨h.1, h.2 2 (by decide) (by decide)⟩

/-- Record fixture for claim C1: an orphan whose parent path "1.2" matches no
record. -/
def c1Orphan : Func :=
  { id := "B", name := "Orphan", path := "1.2.3", team := "t",
    beskrivelse := "", kritikalitet := "", dependencies := [] }

/-- Record fixture for claim C1: an unrelated top-level record. -/
def c1Other : Func :=
  { id := "A", name := "Niner", path := "9.9", team := "t",
    beskrivelse := "", kritikalitet := "", dependencies := [] }

/-- Registry fixture for claim C1. -/
def c1Funcs : List Func := [c1Other, c1Orphan]

/-- Claim C1 (counterexample): a record with more than two path segments whose
parent path matches no record is not emitted at all — no document is written
for it, contradicting the claim that a document with a null parent is
emitted. -/
theorem claim_C1_counterexample :
    (2 < path_depth c1Orphan.path ∧
      ∀ g ∈ c1Funcs, g.path ≠ parentPathOf c1Orphan.path) ∧
    ¬ ∃ e ∈ write_yaml_files_hierarchically c1Funcs, e.func = c1Orphan := by
  decide

/-- Claim C1 (amended): for a record with more than two path segments whose
parent path equals no record's path, parent resolution yields the explicit
"not found" result, and the emitter silently writes no document for that
record (the rest of the run is unaffected; nothing fails). -/
theorem claim_C1_orphan_not_emitted (functions : List Func) (f : Func)
    (hdepth : 2 < path_depth f.path)
    (hparent : ∀ g ∈ functions, g.path ≠ parentPathOf f.path) :
    find_parent_function f.path functions = none ∧
    ∀ e ∈ write_yaml_files_hierarchically functions, e.func ≠ f := by
  constructor
  · unfold find_parent_function
    rw [if_neg (by omega)]
    rw [List.find?_eq_none.mpr (fun g hg => by simp [hparent g hg])]
  · intro e he hef
    have hg := emitted_good he
    rw [hef] at hg
    obtain ⟨-, hd2, hanc⟩ := hg
    obtain ⟨g, hgmem, hgp⟩ := hanc (path_depth f.path - 1) (by omega) (by omega)
    apply hparent g hgmem
    rw [hgp, parentPathOf_eq_ancestor]

/-- Witness for claim C1 (amended) on the concrete orphan registry. -/
theorem claim_C1_witness :
    (2 < path_depth c1Orphan.path ∧
      ∀ g ∈ c1Funcs, g.path ≠ parentPathOf c1Orphan.path) ∧
    (find_parent_function c1Orphan.path c1Funcs = none ∧
      ∀ e ∈ write_yaml_files_hierarchically c1Funcs, e.func ≠ c1Orphan) :=
  ⟨by decide, claim_C1_orphan_not_emitted c1Funcs c1Orphan (by decide) (by decide)⟩

/-- Claim C5: the aggregate document's `spec.targets` is a permutation of the
rendered path of every written file (exactly one entry per written document),
is sorted in lexicographic order, and every entry is prefixed with "./". -/
theorem claim_C5_targets (functions : List Func) :
    List.Perm
      (write_locations_file
        ((write_yaml_files_hierarchically functions).map
          (fun e => e.relPath))).spec.targets
      (((write_yaml_files_hierarchically functions).map
          (fun e => e.relPath)).map renderRelPath) ∧
    List.Sorted (fun a b : String => a ≤ b)
      (write_locations_file
        ((write_yaml_files_hierarchically functions).map
          (fun e => e.relPath))).spec.targets ∧
    ∀ t ∈ (write_locations_file
        ((write_yaml_files_hierarchically functions).map
          (fun e => e.relPath))).spec.targets,
      ∃ r, t = "./" ++ r := by
  have htargets : ∀ created : List (List String),
      (write_locations_file created).spec.targets =
        (created.map renderRelPath).mergeSort := fun created => rfl
  refine ⟨?_, ?_, ?_⟩
  · rw [htargets]
    exact List.mergeSort_perm _ _
  · rw [htargets]
    exact List.sorted_mergeSort' _
  · intro t ht
    rw [htargets] at ht
    have hmem := (List.mergeSort_perm
      (((write_yaml_files_hierarchically functions).map
        (fun e => e.relPath)).map renderRelPath) _).mem_iff.mp ht
    rw [List.mem_map] at hmem
    obtain ⟨p, hp, rfl⟩ := hmem
    exact ⟨String.intercalate "/" p, rfl⟩
